import Mathlib

/-!
# Verification of the Cxx-Heterogeneous-Maps library

This file is a shallow embedding, in Lean 4, of the two lookup/storage
engines of the Geopipe `Cxx-Heterogeneous-Maps` library:

* the compile-time `HMap` machinery of `include/hmap/hmap.hpp`
  (type-level merge sort, duplicate detection, balanced-tree assembly,
  and tree lookup), and
* the run-time `DynamicHMap` of `include/hmap/dynamic-hmap.hpp`
  (keys ordered by `(text, type-identity)`, values stored behind type
  erasure in `std::any`, checked accessors, and the transfer protocol
  `extract`/`insert` and `optCheckOut`/`optCheckIn`).

Modelling conventions:
* A C++ value type is represented by its type-identity tag, a `Nat`
  (the `KeyTag<V>` singleton addresses give an arbitrary but fixed total
  order on types, modelled by the order on `Nat`).
* A runtime value of some concrete type is a pair `(tag of its type,
  payload : Nat)`; the payload abstracts the bits of the value.
* `std::any` is `Option (Nat × Nat)`: `none` is the empty holder, and
  `some (t, p)` holds a value of the type whose identity is `t`.
* `std::map<KeyBase, std::any>` is a list of entries kept sorted
  (strictly, by the key comparator); well-formedness is the `DWF`
  predicate below.  `std::map` locates elements by comparator
  equivalence (`¬(a < b) ∧ ¬(b < a)`), which `kEquivB` mirrors.
-/

/-! ## Compile-time `HMap` (`include/hmap/hmap.hpp`)

A compile-time key/value pair `detail::detail::ValueType<Value, Cs...>`
carries the key string (`CharList<Cs...>`), the C++ type of the stored
value (modelled by its tag `ty`) and the stored runtime value itself
(modelled by `val`). -/

structure SPair where
  key : String
  ty : Nat
  val : Nat
deriving DecidableEq, Repr

/-- `detail::Merge`: the recursive compile-time sorted merge of two sorted
runs.  `KeyLess<L, R>` is `L::c_str() < R::c_str()` on `std::string_view`,
i.e. lexicographic comparison of the key strings; when the left head is
strictly smaller it is taken first, otherwise the right head is taken. -/
def mergeRuns : List SPair → List SPair → List SPair
  | [], r => r
  | l, [] => l
  | a :: l, b :: r =>
    if a.key < b.key then a :: mergeRuns l (b :: r)
    else b :: mergeRuns (a :: l) r
termination_by l r => l.length + r.length

/-- `detail::MergeN`: the 2D tournament schedule.  The first argument is
the `Head` buffer of already 2-way-merged runs, the second the remaining
runs `Ls...`.  Pairs of runs are merged and shunted into `Head`; when at
most one run remains the `Head` buffer (plus the odd run, if any) is
recycled as the new `Ls...`; a single remaining run with empty `Head` is
the fully sorted result. -/
def mergeNAux : List (List SPair) → List (List SPair) → List SPair
  | [], [] => []
  | [], [l] => l
  | h :: hs, [] => mergeNAux [] (h :: hs)
  | h :: hs, [l] => mergeNAux [] (h :: hs ++ [l])
  | hd, l1 :: l2 :: ls => mergeNAux (hd ++ [mergeRuns l1 l2]) ls
termination_by hd ls => (hd.length + ls.length, hd.length)

/-- `detail::MergeSort`: each input pair becomes a singleton run, then the
tournament of 2-way merges runs to completion. -/
def mergeSortL (ps : List SPair) : List SPair :=
  mergeNAux [] (ps.map fun p => [p])

/-- `detail::NoRepeats` applied (by `NoRepeatsDispatcher`) to the
`KeyType::Typeless` char-lists of the sorted sequence: `true` unless two
adjacent key strings are identical. -/
def noRepeats : List String → Bool
  | [] => true
  | [_] => true
  | a :: b :: rest => if a = b then false else noRepeats (b :: rest)

/-- `HMap::NoDuplicateKeys`: the duplicate check computed on the sorted
sequence, asserted by `static_assert` in the `HMap` constructor. -/
def noDuplicateKeys (ps : List SPair) : Bool :=
  noRepeats ((mergeSortL ps).map (·.key))

/-- `detail::Node`, with the `void`-child specializations collapsed to an
explicit empty marker (`SortedToTree<Node, tuple<>>::type = void`). -/
inductive HTree where
  | empty : HTree
  | node (v : SPair) (l r : HTree) : HTree
deriving DecidableEq, Repr

/-- `detail::Split`: starting from an empty `Left`, the head of `Right`
is moved to the back of `Left` until `Left` holds `TargetLeft` elements;
the element reached is `Here`, the remainder is the new `Right`. -/
def splitGo : List SPair → List SPair → Nat → Option (List SPair × SPair × List SPair)
  | _, [], _ => none
  | left, h :: rs, tgt =>
    if left.length = tgt then some (left, h, rs)
    else splitGo (left ++ [h]) rs tgt

/-- `detail::SortedToTree`: an empty sequence is the empty marker; a
sequence `HeadT :: TailTs` is split with
`TargetLeft = sizeof...(TailTs) / 2`, the element at that index becomes
the node value and the two sub-sequences recurse into the children.
(`splitGo_spec` below shows this take/get/drop formulation is exactly
what the iterative `Split` computes.) -/
def sortedToTree : List SPair → HTree
  | [] => .empty
  | h :: t =>
    HTree.node
      ((h :: t).get ⟨t.length / 2, by
        simpa using Nat.lt_succ_of_le (Nat.div_le_self t.length 2)⟩)
      (sortedToTree ((h :: t).take (t.length / 2)))
      (sortedToTree ((h :: t).drop (t.length / 2 + 1)))
termination_by l => l.length
decreasing_by
  · simpa using Nat.lt_succ_of_le (Nat.min_le_left (t.length / 2) (t.length + 1) |>.trans
      (Nat.div_le_self t.length 2))
  · simp only [List.length_drop, List.length_cons]
    omega

/-- `detail::FindInTree`: descend comparing the query string with the
node's key (`KeyLess` both ways); on neither-less the node is the match;
an empty subtree means the lookup resolves to `void` (no match). -/
def findInTree : HTree → String → Option SPair
  | .empty, _ => none
  | .node v l r, s =>
    if s < v.key then findInTree l s
    else if v.key < s then findInTree r s
    else some v

/-- `HMap::operator[]` with a fully typed key `KeyType<Value, Cs...>`:
the tree lookup must succeed (`static_assert(!is_same_v<ValueType, void>)`)
and the found pair's value type must equal the key's
(`static_assert(is_same_v<ValueType, typename KeyType::ValueType>)`);
then the stored value of the selected node is returned. -/
def hmapIndex (t : HTree) (s : String) (qty : Nat) : Option Nat :=
  match findInTree t s with
  | none => none
  | some v => if v.ty = qty then some v.val else none

/-- In-order traversal of the lookup tree. -/
def inorder : HTree → List SPair
  | .empty => []
  | .node v l r => inorder l ++ v :: inorder r

/-- Number of levels of the lookup tree (= maximal access depth). -/
def heightT : HTree → Nat
  | .empty => 0
  | .node _ l r => 1 + max (heightT l) (heightT r)

/-! ## Run-time `DynamicHMap` (`include/hmap/dynamic-hmap.hpp`)

`detail::KeyBase` is a string plus a reference to the `KeyTag<V>`
singleton of the mapped type `V`; the singleton addresses give a fixed
total order on types, modelled by `Nat`. -/

structure KeyB where
  key : String
  tag : Nat
deriving DecidableEq, Repr

/-- `detail::KeyBase::operator<`:
`key < k.key || (key == k.key && &tag.get() < &k.tag.get())`.
(`std::string::operator<` is lexicographic comparison of the character
sequences, i.e. `<` on the strings' character data; `kLTb_iff` below
restates it through the order on `String`.) -/
def kLTb (a b : KeyB) : Bool :=
  decide (a.key.data < b.key.data) || (a.key == b.key && decide (a.tag < b.tag))

/-- `detail::KeyBase::operator==`:
`key == k.key && &tag.get() == &k.tag.get()`. -/
def kEQb (a b : KeyB) : Bool :=
  a.key == b.key && a.tag == b.tag

/-- `std::map` locates elements by comparator equivalence:
neither key is `operator<` the other. -/
def kEquivB (a b : KeyB) : Bool :=
  !(kLTb a b) && !(kLTb b a)

/-- `std::any`: empty, or a value of the concrete type tagged `t` with
abstract payload `p`. -/
abbrev AnyV := Option (Nat × Nat)

/-- `std::any_cast<V>` on a holder: succeeds with the payload exactly
when the held concrete type's tag equals `V`'s tag, and throws
(`none`) on an empty holder or a mismatched held type. -/
def anyCast (ty : Nat) (a : AnyV) : Option Nat :=
  match a with
  | some (t, p) => if t = ty then some p else none
  | none => none

/-- The payload of a non-empty holder (`0` for the empty holder). -/
def getPayload (a : AnyV) : Nat :=
  match a with
  | some (_, p) => p
  | none => 0

/-- One entry of the backing `std::map<detail::KeyBase, std::any>`. -/
abbrev DEntry := KeyB × AnyV

/-- The backing store, as the sorted entry list of the `std::map`. -/
abbrev DMap := List DEntry

/-- `map_.find(k)`: the entry whose key is comparator-equivalent to `k`,
if any (`none` models the end iterator). -/
def mapFind (m : DMap) (k : KeyB) : Option DEntry :=
  m.find? (fun e => kEquivB e.1 k)

/-- `std::map` insertion of `(k, a)` when no equivalent key is present
(`insert` of a fresh node / `try_emplace`): the entry goes to its sorted
position; if an equivalent key exists the map is left unchanged. -/
def mapInsertIfAbsent (k : KeyB) (a : AnyV) : DMap → DMap
  | [] => [(k, a)]
  | e :: es =>
    if kLTb k e.1 then (k, a) :: e :: es
    else if kLTb e.1 k then e :: mapInsertIfAbsent k a es
    else e :: es

/-- Overwrite the holder of the entry equivalent to `k` in place (the
stored key is untouched); no-op when `k` is absent.  Models assigning
through `map_[k]` / an iterator to an entry known to be present. -/
def mapAssignAt (k : KeyB) (a : AnyV) : DMap → DMap
  | [] => []
  | e :: es =>
    if kEquivB e.1 k then (e.1, a) :: es
    else e :: mapAssignAt k a es

/-- `map_.extract(k)`: detach the entry equivalent to `k` (the node
handle keeps the original key and the untouched holder); an absent key
yields an empty handle and an unchanged map. -/
def mapExtract (k : KeyB) : DMap → Option DEntry × DMap
  | [] => (none, [])
  | e :: es =>
    if kEquivB e.1 k then (some e, es)
    else
      let (n, es') := mapExtract k es
      (n, e :: es')

/-- Every entry's holder holds a value whose concrete type is exactly
the type denoted by the entry key's identity tag (§3 soundness
invariant; in particular the holder is not empty). -/
def entrySound (e : DEntry) : Bool :=
  match e.2 with
  | some (t, _) => t == e.1.tag
  | none => false

/-- The soundness invariant for a whole map. -/
abbrev DSound (m : DMap) : Prop := ∀ e ∈ m, entrySound e = true

/-- Well-formedness of the list model of `std::map`: entries strictly
sorted by the key comparator. -/
abbrev DWF (m : DMap) : Prop := m.Pairwise (fun a b => kLTb a.1 b.1 = true)

/-- Error conditions of checked access (§7). -/
inductive AtErr where
  | keyNotFound : AtErr
  | typeMismatch : AtErr
deriving DecidableEq, Repr

/-- `DynamicHMap::at(const Key<V>&)`: `map_.at(k)` throws
`std::out_of_range` when no equivalent key is present (KeyNotFound);
otherwise `std::any_cast<V&>` reads the holder, throwing
`std::bad_any_cast` when the held type is not `V` (TypeMismatch,
reachable only after `unsafe_insert_or_assign` misuse). -/
def atD (m : DMap) (k : KeyB) : Except AtErr Nat :=
  match mapFind m k with
  | none => .error .keyNotFound
  | some e =>
    match anyCast k.tag e.2 with
    | some p => .ok p
    | none => .error .typeMismatch

/-- `DynamicHMap::erase(const Key<V>&)`: `map_.find(k)`; the end
iterator yields `0` with the map unchanged, otherwise the found entry is
erased and `1` returned. -/
def eraseD (m : DMap) (k : KeyB) : Nat × DMap :=
  match mapFind m k with
  | none => (0, m)
  | some _ => (1, (mapExtract k m).2)

/-- `DynamicHMap::extract1`: `std::make_pair(k, map_.extract(k))` — the
transfer capsule pairs the request key with the detached node handle. -/
def extract1 (m : DMap) (k : KeyB) : (KeyB × Option DEntry) × DMap :=
  let (n, m') := mapExtract k m
  ((k, n), m')

/-- `DynamicHMap::insert1(k, kPrime, node_handle)`: an empty handle does
nothing.  Otherwise, when the two maps' allocators are type-compatible
and equal (`allocEq`; always the case for two `DynamicHMap`s, whose maps
use equal `std::allocator`s): if `k == kPrime` the node is transplanted
with its own stored key (`map_.insert(std::move(node_handle))`, which
keeps an already-present equivalent entry and drops the node), else
`map_.try_emplace(k, std::move(node_handle.mapped()))` move-constructs
the destination `std::any` from the source holder — the erased holder is
moved unchanged, no `W`-to-`V` value conversion takes place.  With
unequal allocators the holder is copied, again unchanged
(`map_.try_emplace(k, node_handle.mapped())`). -/
def insert1 (allocEq : Bool) (m : DMap) (k kPrime : KeyB) (h : Option DEntry) : DMap :=
  match h with
  | none => m
  | some (hk, hv) =>
    if allocEq then
      if kEQb k kPrime then mapInsertIfAbsent hk hv m
      else mapInsertIfAbsent k hv m
    else mapInsertIfAbsent k hv m

/-- `DynamicHMap::optCheckOut1`: `map_.extract(k)`; an empty handle
yields an empty optional; otherwise `std::any_cast<V&&>` moves the value
out of the holder into the optional (outer `none` models the
`bad_any_cast` thrown when the holder does not hold a `V`). -/
def optCheckOut1 (m : DMap) (k : KeyB) : Option (Option Nat × DMap) :=
  let (n, m') := mapExtract k m
  match n with
  | none => some (none, m')
  | some e =>
    match anyCast k.tag e.2 with
    | some p => some (some p, m')
    | none => none

/-- `DynamicHMap::optCheckIn1`: an empty optional is skipped.  Otherwise
`map_[k]` finds or default-inserts the holder; an empty holder is filled
with a default-constructed `V` (`vHolder.emplace<V>()`); then
`std::any_cast<V&>` (outer `none` models its `bad_any_cast` on a
mismatched held type) and the value is move-assigned into the holder. -/
def optCheckIn1 (m : DMap) (k : KeyB) (arg : Option Nat) : Option DMap :=
  match arg with
  | none => some m
  | some p =>
    match mapFind m k with
    | none => some (mapInsertIfAbsent k (some (k.tag, p)) m)
    | some e =>
      match e.2 with
      | none => some (mapAssignAt k (some (k.tag, p)) m)
      | some (t, _) =>
        if t = k.tag then some (mapAssignAt k (some (k.tag, p)) m) else none

/-- `DynamicHMap::optCheckOut(ks...)`: `optCheckOut1` per key, the keys
processed in sequence, collecting the tuple of optionals. -/
def checkOutList : DMap → List KeyB → Option (List (Option Nat) × DMap)
  | m, [] => some ([], m)
  | m, k :: ks =>
    match optCheckOut1 m k with
    | none => none
    | some (r, m1) =>
      match checkOutList m1 ks with
      | none => none
      | some (rs, m2) => some (r :: rs, m2)

/-- `DynamicHMap::optCheckIn(tup, ks...)`: the fold expression applies
`optCheckIn1` to each (optional, key) pair left to right. -/
def checkInList : DMap → List (Option Nat) → List KeyB → Option DMap
  | m, [], [] => some m
  | m, r :: rs, k :: ks =>
    match optCheckIn1 m k r with
    | none => none
    | some m1 => checkInList m1 rs ks
  | _, _, _ => none

/-- `DynamicHMap::unsafe_insert_or_assign(kB, a)`:
`map_.insert_or_assign(kB, a)` with a caller-supplied type-erased
holder — inserted at the sorted position when absent, assigned over the
existing holder (stored key untouched) when present. -/
def unsafeInsertOrAssign (m : DMap) (kB : KeyB) (a : AnyV) : DMap :=
  match mapFind m kB with
  | none => mapInsertIfAbsent kB a m
  | some _ => mapAssignAt kB a m

/-! ## Order lemmas for the run-time key comparator -/

theorem kLTb_iff {a b : KeyB} :
    kLTb a b = true ↔ (a.key < b.key ∨ (a.key = b.key ∧ a.tag < b.tag)) := by
  simp [kLTb, String.lt_iff_toList_lt, String.toList]

theorem kEQb_iff {a b : KeyB} : kEQb a b = true ↔ a = b := by
  cases a; cases b
  simp [kEQb, KeyB.mk.injEq]

theorem kLTb_irrefl (a : KeyB) : kLTb a a = false := by
  rw [Bool.eq_false_iff]
  intro h
  rcases kLTb_iff.mp h with h' | ⟨_, h'⟩ <;> exact lt_irrefl _ h'

theorem kLTb_asymm {a b : KeyB} (h : kLTb a b = true) : kLTb b a = false := by
  rw [Bool.eq_false_iff]
  intro h'
  rcases kLTb_iff.mp h with h1 | ⟨he1, h1⟩ <;>
    rcases kLTb_iff.mp h' with h2 | ⟨he2, h2⟩
  · exact lt_irrefl _ (h1.trans h2)
  · exact lt_irrefl _ (he2 ▸ h1)
  · exact lt_irrefl _ (he1 ▸ h2)
  · exact lt_irrefl _ (h1.trans h2)

theorem kLTb_trans {a b c : KeyB} (h1 : kLTb a b = true) (h2 : kLTb b c = true) :
    kLTb a c = true := by
  rw [kLTb_iff] at h1 h2 ⊢
  rcases h1 with h1 | ⟨he1, h1⟩ <;> rcases h2 with h2 | ⟨he2, h2⟩
  · exact Or.inl (h1.trans h2)
  · exact Or.inl (he2 ▸ h1)
  · exact Or.inl (he1 ▸ h2)
  · exact Or.inr ⟨he1.trans he2, h1.trans h2⟩

theorem kLTb_trichotomy (a b : KeyB) :
    kLTb a b = true ∨ a = b ∨ kLTb b a = true := by
  rcases lt_trichotomy a.key b.key with h | h | h
  · exact Or.inl (kLTb_iff.mpr (Or.inl h))
  · rcases lt_trichotomy a.tag b.tag with h' | h' | h'
    · exact Or.inl (kLTb_iff.mpr (Or.inr ⟨h, h'⟩))
    · refine Or.inr (Or.inl ?_)
      cases a; cases b; simp_all
    · exact Or.inr (Or.inr (kLTb_iff.mpr (Or.inr ⟨h.symm, h'⟩)))
  · exact Or.inr (Or.inr (kLTb_iff.mpr (Or.inl h)))

/-- Under the full `(text, identity)` comparator, `std::map` key
equivalence coincides with key equality. -/
theorem kEquivB_iff {a b : KeyB} : kEquivB a b = true ↔ a = b := by
  constructor
  · intro h
    simp only [kEquivB, Bool.and_eq_true, Bool.not_eq_true'] at h
    rcases kLTb_trichotomy a b with h' | h' | h'
    · rw [h.1] at h'; exact absurd h' (by simp)
    · exact h'
    · rw [h.2] at h'; exact absurd h' (by simp)
  · rintro rfl
    simp [kEquivB, kLTb_irrefl]

theorem kEquivB_refl (a : KeyB) : kEquivB a a = true := kEquivB_iff.mpr rfl

theorem kEquivB_eq_false_iff {a b : KeyB} : kEquivB a b = false ↔ a ≠ b := by
  rw [← Bool.not_eq_true, not_iff_not]
  exact kEquivB_iff

theorem keyB_eq_of_not_lt {a b : KeyB} (h1 : kLTb a b = false) (h2 : kLTb b a = false) :
    a = b :=
  kEquivB_iff.mp (by simp [kEquivB, h1, h2])

theorem kLTb_eq_false_of_eq {a b : KeyB} (h : a = b) : kLTb a b = false := by
  subst h; exact kLTb_irrefl a

/-! ## Basic lemmas about the backing map model -/

theorem mapFind_eq_none_iff {m : DMap} {k : KeyB} :
    mapFind m k = none ↔ ∀ e ∈ m, e.1 ≠ k := by
  simp only [mapFind, List.find?_eq_none]
  constructor
  · intro h e he
    have := h e he
    rwa [Bool.not_eq_true, kEquivB_eq_false_iff] at this
  · intro h e he
    rw [Bool.not_eq_true, kEquivB_eq_false_iff]
    exact h e he

theorem mapFind_some {m : DMap} {k : KeyB} {e : DEntry}
    (h : mapFind m k = some e) : e ∈ m ∧ e.1 = k := by
  have h' : List.find? (fun e => kEquivB e.1 k) m = some e := h
  exact ⟨List.mem_of_find?_eq_some h',
    kEquivB_iff.mp (List.find?_some (p := fun (e : DEntry) => kEquivB e.1 k) h')⟩

theorem mapExtract_of_find_none {m : DMap} {k : KeyB}
    (h : mapFind m k = none) : mapExtract k m = (none, m) := by
  induction m with
  | nil => rfl
  | cons e es ih =>
    rw [mapFind_eq_none_iff] at h
    have he : kEquivB e.1 k = false :=
      kEquivB_eq_false_iff.mpr (h e (List.mem_cons_self e es))
    have hes : mapFind es k = none :=
      mapFind_eq_none_iff.mpr fun x hx => h x (List.mem_cons_of_mem e hx)
    simp [mapExtract, he, ih hes]

theorem mapExtract_of_find_some {m : DMap} {k : KeyB} {e : DEntry}
    (h : mapFind m k = some e) :
    ∃ l1 l2, m = l1 ++ e :: l2 ∧ mapExtract k m = (some e, l1 ++ l2) ∧
      ∀ x ∈ l1, kEquivB x.1 k = false := by
  induction m with
  | nil => simp [mapFind] at h
  | cons e0 es ih =>
    by_cases he : kEquivB e0.1 k = true
    · have : e0 = e := by
        simp only [mapFind, List.find?_cons, he] at h
        exact Option.some.inj h
      subst this
      exact ⟨[], es, by simp [mapExtract, he]⟩
    · rw [Bool.not_eq_true] at he
      have hes : mapFind es k = some e := by
        simpa [mapFind, List.find?_cons, he] using h
      obtain ⟨l1, l2, hm, hx, hl1⟩ := ih hes
      refine ⟨e0 :: l1, l2, by simp [hm], ?_, ?_⟩
      · simp [mapExtract, he, hx]
      · intro x hx'
        rcases List.mem_cons.mp hx' with rfl | hx'
        · exact he
        · exact hl1 x hx'

theorem mapExtract_sublist (k : KeyB) (m : DMap) :
    (mapExtract k m).2.Sublist m := by
  induction m with
  | nil => simp [mapExtract]
  | cons e es ih =>
    by_cases he : kEquivB e.1 k = true
    · simp [mapExtract, he]
    · rw [Bool.not_eq_true] at he
      simpa [mapExtract, he] using List.Sublist.cons₂ e ih

theorem DWF_of_sublist {m m' : DMap} (h : m'.Sublist m) (hwf : DWF m) : DWF m' :=
  List.Pairwise.sublist h hwf

theorem DSound_of_sublist {m m' : DMap} (h : m'.Sublist m) (hs : DSound m) : DSound m' :=
  fun e he => hs e (h.mem he)

/-- Inserting between a lower and an upper region lands exactly in
the gap. -/
theorem mapInsertIfAbsent_between (k : KeyB) (a : AnyV) (l1 l2 : DMap)
    (h1 : ∀ x ∈ l1, kLTb x.1 k = true) (h2 : ∀ x ∈ l2, kLTb k x.1 = true) :
    mapInsertIfAbsent k a (l1 ++ l2) = l1 ++ (k, a) :: l2 := by
  induction l1 with
  | nil =>
    cases l2 with
    | nil => rfl
    | cons e es => simp [mapInsertIfAbsent, h2 e (List.mem_cons_self e es)]
  | cons x l1 ih =>
    have hx : kLTb x.1 k = true := h1 x (List.mem_cons_self x l1)
    have hkx : kLTb k x.1 = false := kLTb_asymm hx
    simp only [List.cons_append, mapInsertIfAbsent, hkx, hx, if_false, if_true,
      Bool.false_eq_true, ite_false, ite_true]
    exact congrArg (x :: ·) (ih fun y hy => h1 y (List.mem_cons_of_mem x hy))

theorem mapFind_insertIfAbsent_ne {m : DMap} {k k' : KeyB} (a : AnyV)
    (hne : k ≠ k') :
    mapFind (mapInsertIfAbsent k a m) k' = mapFind m k' := by
  have hke : kEquivB k k' = false := kEquivB_eq_false_iff.mpr hne
  induction m with
  | nil => simp [mapInsertIfAbsent, mapFind, List.find?_cons, hke]
  | cons e es ih =>
    by_cases h1 : kLTb k e.1 = true
    · simp [mapInsertIfAbsent, h1, mapFind, List.find?_cons, hke]
    · rw [Bool.not_eq_true] at h1
      by_cases h2 : kLTb e.1 k = true
      · by_cases he : kEquivB e.1 k' = true
        · simp [mapInsertIfAbsent, h1, h2, mapFind, List.find?_cons, he]
        · rw [Bool.not_eq_true] at he
          simp only [mapInsertIfAbsent, h1, h2, Bool.false_eq_true, ite_false, ite_true]
          simp only [mapFind, List.find?_cons, he] at ih ⊢
          exact ih
      · rw [Bool.not_eq_true] at h2
        simp [mapInsertIfAbsent, h1, h2]

theorem mapFind_insertIfAbsent_self {m : DMap} {k : KeyB} (a : AnyV)
    (h : mapFind m k = none) :
    mapFind (mapInsertIfAbsent k a m) k = some (k, a) := by
  induction m with
  | nil => simp [mapInsertIfAbsent, mapFind, List.find?_cons, kEquivB_refl]
  | cons e es ih =>
    rw [mapFind_eq_none_iff] at h
    have he : kEquivB e.1 k = false :=
      kEquivB_eq_false_iff.mpr (h e (List.mem_cons_self e es))
    have hes : mapFind es k = none :=
      mapFind_eq_none_iff.mpr fun x hx => h x (List.mem_cons_of_mem e hx)
    by_cases h1 : kLTb k e.1 = true
    · simp [mapInsertIfAbsent, h1, mapFind, List.find?_cons, kEquivB_refl]
    · rw [Bool.not_eq_true] at h1
      have h2 : kLTb e.1 k = true := by
        rcases kLTb_trichotomy k e.1 with hlt | heq | hgt
        · rw [hlt] at h1; cases h1
        · exact absurd (kEquivB_iff.mpr heq.symm) (by simp [he])
        · exact hgt
      simp only [mapInsertIfAbsent, h1, h2, Bool.false_eq_true, ite_false, ite_true]
      simp only [mapFind, List.find?_cons, he, Bool.false_eq_true, ite_false]
      exact ih hes

/-! ## Claim C6: run-time key ordering and equality -/

/-- Claim C6: for all run-time keys `a` and `b`, `a < b` holds exactly
when `a`'s text precedes `b`'s, or the texts are equal and `a`'s type
identity precedes `b`'s; `a == b` holds exactly when both the text and
the type identity coincide — never on matching text alone — and the
comparator is trichotomous. -/
theorem keyBase_order_spec (a b : KeyB) :
    (kLTb a b = true ↔ (a.key < b.key ∨ (a.key = b.key ∧ a.tag < b.tag))) ∧
    (kEQb a b = true ↔ (a.key = b.key ∧ a.tag = b.tag)) ∧
    (kEQb a b = true ↔ a = b) ∧
    (kLTb a b = true ∨ kEQb a b = true ∨ kLTb b a = true) := by
  refine ⟨kLTb_iff, ?_, kEQb_iff, ?_⟩
  · simp [kEQb]
  · rcases kLTb_trichotomy a b with h | h | h
    · exact Or.inl h
    · exact Or.inr (Or.inl (kEQb_iff.mpr h))
    · exact Or.inr (Or.inr h)

/-! ## Claim C5: `DynamicHMap::find` -/

/-- Claim C5: `find((s, V))` yields the end sentinel exactly when no
entry with the full key `(s, V)` is present — in particular an entry
located for the string can never carry a mismatched identity tag, the
situation the sentinel guards against — and otherwise yields the
matching entry, which under the soundness invariant reads back at type
`V` successfully. -/
theorem dyn_find_spec (m : DMap) (k : KeyB) (hs : DSound m) :
    (mapFind m k = none ↔ ∀ e ∈ m, e.1 ≠ k) ∧
    (∀ e, mapFind m k = some e → e.1 = k ∧ e.1.tag = k.tag ∧
      anyCast k.tag e.2 = some (getPayload e.2)) := by
  refine ⟨mapFind_eq_none_iff, ?_⟩
  intro e he
  obtain ⟨hmem, hk⟩ := mapFind_some he
  have hsnd := hs e hmem
  refine ⟨hk, by rw [hk], ?_⟩
  unfold entrySound at hsnd
  match hv : e.2 with
  | some (t, p) =>
    rw [hv] at hsnd
    have ht : t = e.1.tag := by simpa using hsnd
    simp [anyCast, getPayload, ht, hk]
  | none => rw [hv] at hsnd; cases hsnd

/-- Witness for C5 at a concrete sound map: the full key `("foo", int)`
is found, while `("foo", float)` — same string, other identity — is
reported absent. -/
theorem dyn_find_spec_witness :
    DSound [(⟨"foo", 0⟩, some (0, 1))] ∧
    (mapFind [(⟨"foo", 0⟩, some (0, 1))] ⟨"foo", 1⟩ = none ↔
      ∀ e ∈ [((⟨"foo", 0⟩ : KeyB), (some (0, 1) : AnyV))], e.1 ≠ ⟨"foo", 1⟩) ∧
    (∀ e, mapFind [(⟨"foo", 0⟩, some (0, 1))] ⟨"foo", 1⟩ = some e →
      e.1 = ⟨"foo", 1⟩ ∧ e.1.tag = (⟨"foo", 1⟩ : KeyB).tag ∧
      anyCast (⟨"foo", 1⟩ : KeyB).tag e.2 = some (getPayload e.2)) :=
  ⟨by decide, (dyn_find_spec [(⟨"foo", 0⟩, some (0, 1))] ⟨"foo", 1⟩ (by decide)).1,
    (dyn_find_spec [(⟨"foo", 0⟩, some (0, 1))] ⟨"foo", 1⟩ (by decide)).2⟩

/-! ## Claim C7: `DynamicHMap::at` -/

/-- Claim C7: `at((s, V))` returns the stored value exactly when an
entry with the full `(text, identity)` key is present (by soundness the
read then succeeds), and otherwise signals `KeyNotFound` as a
recoverable error; an entry with the same string under a different
identity never satisfies the lookup, and no default is substituted. -/
theorem dyn_at_spec (m : DMap) (k : KeyB) (hs : DSound m) :
    (mapFind m k = none → atD m k = .error .keyNotFound) ∧
    (∀ e, mapFind m k = some e → e.1 = k ∧ atD m k = .ok (getPayload e.2)) ∧
    (∀ e ∈ m, e.1.key = k.key → e.1.tag ≠ k.tag → mapFind m k ≠ some e) := by
  refine ⟨?_, ?_, ?_⟩
  · intro h; simp [atD, h]
  · intro e he
    obtain ⟨hmem, hk⟩ := mapFind_some he
    have hsnd := hs e hmem
    unfold entrySound at hsnd
    refine ⟨hk, ?_⟩
    match hv : e.2 with
    | some (t, p) =>
      rw [hv] at hsnd
      have ht : t = e.1.tag := by simpa using hsnd
      simp [atD, he, anyCast, getPayload, hv, ht, hk]
    | none => rw [hv] at hsnd; cases hsnd
  · intro e _ _ htag he
    exact htag (congrArg KeyB.tag (mapFind_some he).2)

/-- Witness for C7: on the sound map holding `("foo", int) = 1`,
looking up the absent full key `("foo", float)` signals KeyNotFound. -/
theorem dyn_at_spec_witness :
    DSound [(⟨"foo", 0⟩, some (0, 1))] ∧
    mapFind [(⟨"foo", 0⟩, some (0, 1))] ⟨"foo", 1⟩ = none ∧
    atD [(⟨"foo", 0⟩, some (0, 1))] ⟨"foo", 1⟩ = .error .keyNotFound :=
  ⟨by decide, by decide,
    (dyn_at_spec [(⟨"foo", 0⟩, some (0, 1))] ⟨"foo", 1⟩ (by decide)).1 (by decide)⟩

/-! ## Claim C8: `DynamicHMap::erase` -/

/-- Claim C8: `erase` on a key whose full `(text, identity)` pair is
absent returns `0` and leaves the map unchanged — even when the same
string is present under another identity — while `erase` on a present
full key returns `1` and removes exactly that entry, shrinking the map
by exactly one. -/
theorem dyn_erase_spec (m : DMap) (k : KeyB) :
    (mapFind m k = none → eraseD m k = (0, m)) ∧
    (∀ e, mapFind m k = some e →
      (eraseD m k).1 = 1 ∧
      (∃ l1 l2, m = l1 ++ e :: l2 ∧ (eraseD m k).2 = l1 ++ l2) ∧
      (eraseD m k).2.length + 1 = m.length) := by
  constructor
  · intro h; simp [eraseD, h]
  · intro e he
    obtain ⟨l1, l2, hm, hx, -⟩ := mapExtract_of_find_some he
    have h2 : (eraseD m k).2 = l1 ++ l2 := by simp [eraseD, he, hx]
    refine ⟨by simp [eraseD, he], ⟨l1, l2, hm, h2⟩, ?_⟩
    rw [h2, hm]
    simp [List.length_append]
    omega

/-- Witness for C8 on the spec's concrete scenario: with
`("foo", int) = 1` stored, `erase(("foo", float))` returns 0 leaving the
map intact, and `erase(("foo", int))` returns 1 emptying the map. -/
theorem dyn_erase_spec_witness :
    mapFind [(⟨"foo", 0⟩, some (0, 1))] ⟨"foo", 1⟩ = none ∧
    eraseD [(⟨"foo", 0⟩, some (0, 1))] ⟨"foo", 1⟩ = (0, [(⟨"foo", 0⟩, some (0, 1))]) ∧
    eraseD [(⟨"foo", 0⟩, some (0, 1))] ⟨"foo", 0⟩ = (1, []) :=
  ⟨by decide,
    (dyn_erase_spec [(⟨"foo", 0⟩, some (0, 1))] ⟨"foo", 1⟩).1 (by decide),
    by decide⟩

/-! ## Claim C4: `extract` / `insert` transfer -/

/-- Counterexample to claim C4 as stated: when the destination map
already holds an entry at the full key — here `("a", T0) = 5` in the
destination while the extracted original was `("a", T0) = 1` — both the
node-transplant (`map_.insert`) and the `try_emplace` path refuse to
overwrite, so the entry at `K` afterwards is the destination's old
entry, not one equal to the original. -/
theorem extract_insert_occupied_counterexample :
    (extract1 [(⟨"a", 0⟩, some (0, 1))] ⟨"a", 0⟩).1.2 =
      some (⟨"a", 0⟩, some (0, 1)) ∧
    insert1 true [(⟨"a", 0⟩, some (0, 5))] ⟨"a", 0⟩ ⟨"a", 0⟩
        (extract1 [(⟨"a", 0⟩, some (0, 1))] ⟨"a", 0⟩).1.2 =
      [(⟨"a", 0⟩, some (0, 5))] ∧
    mapFind (insert1 true [(⟨"a", 0⟩, some (0, 5))] ⟨"a", 0⟩ ⟨"a", 0⟩
        (extract1 [(⟨"a", 0⟩, some (0, 1))] ⟨"a", 0⟩).1.2) ⟨"a", 0⟩ =
      some (⟨"a", 0⟩, some (0, 5)) ∧
    ((⟨"a", 0⟩, some (0, 5)) : DEntry) ≠ (⟨"a", 0⟩, some (0, 1)) := by
  refine ⟨by decide, by decide, by decide, by decide⟩

/-- Claim C4 (amended): for every key `K` of a well-formed `DynamicHMap`,
`extract(K)` followed by `insert` of the capsule under the same key `K`
into a destination holding no entry at `K` reproduces an entry at `K`
whose key and value equal the original — in particular re-inserting into
the source map restores it exactly — regardless of which internal path
(`allocEq` choosing node transplant versus reconstruct/copy) is taken;
extract of an absent key yields an empty capsule, and inserting an empty
capsule changes nothing. -/
theorem extract_insert_roundtrip (ae : Bool) (m : DMap) (k : KeyB) (hwf : DWF m) :
    (insert1 ae (extract1 m k).2 k k (extract1 m k).1.2 = m) ∧
    (∀ d : DMap, mapFind d k = none →
      mapFind (insert1 ae d k k (extract1 m k).1.2) k = mapFind m k) ∧
    (mapFind m k = none → (extract1 m k).1.2 = none) ∧
    (∀ d : DMap, insert1 ae d k k none = d) := by
  have hkk : kEQb k k = true := kEQb_iff.mpr rfl
  refine ⟨?_, ?_, ?_, fun d => rfl⟩
  · cases hf : mapFind m k with
    | none =>
      simp [extract1, mapExtract_of_find_none hf, insert1]
    | some e =>
      obtain ⟨ek, ev⟩ := e
      have hek : ek = k := (mapFind_some hf).2
      subst hek
      obtain ⟨l1, l2, hm, hx, -⟩ := mapExtract_of_find_some hf
      have hwf' : List.Pairwise (fun a b : DEntry => kLTb a.1 b.1 = true)
          (l1 ++ (ek, ev) :: l2) := hm ▸ hwf
      rw [List.pairwise_append] at hwf'
      have h1 : ∀ x ∈ l1, kLTb x.1 ek = true :=
        fun x hx' => hwf'.2.2 x hx' (ek, ev) (List.mem_cons_self _ _)
      have h2 : ∀ y ∈ l2, kLTb ek y.1 = true :=
        (List.pairwise_cons.mp hwf'.2.1).1
      have hins : ∀ a : AnyV, mapInsertIfAbsent ek a (l1 ++ l2) = l1 ++ (ek, a) :: l2 :=
        fun a => mapInsertIfAbsent_between ek a l1 l2 h1 h2
      cases ae <;>
        simp [extract1, hx, insert1, hkk, hins, ← hm]
  · intro d hd
    cases hf : mapFind m k with
    | none =>
      simp [extract1, mapExtract_of_find_none hf, insert1, hd]
    | some e =>
      obtain ⟨ek, ev⟩ := e
      have hek : ek = k := (mapFind_some hf).2
      subst hek
      obtain ⟨l1, l2, hm, hx, -⟩ := mapExtract_of_find_some hf
      cases ae <;>
        simp [extract1, hx, insert1, hkk, mapFind_insertIfAbsent_self _ hd]
  · intro h
    simp [extract1, mapExtract_of_find_none h]

/-- Witness for C4 (amended): extracting `("baz", T0)` from the sound
singleton map and re-inserting it restores the map. -/
theorem extract_insert_roundtrip_witness :
    DWF [(⟨"baz", 0⟩, some (0, 7))] ∧
    (insert1 true (extract1 [(⟨"baz", 0⟩, some (0, 7))] ⟨"baz", 0⟩).2 ⟨"baz", 0⟩ ⟨"baz", 0⟩
        (extract1 [(⟨"baz", 0⟩, some (0, 7))] ⟨"baz", 0⟩).1.2 =
      [(⟨"baz", 0⟩, some (0, 7))]) :=
  ⟨by decide,
    (extract_insert_roundtrip true [(⟨"baz", 0⟩, some (0, 7))] ⟨"baz", 0⟩ (by decide)).1⟩

/-! ## Claim C2: the soundness invariant and who can break it -/

/-- Refutation-by-evaluation for claim C2: the *safe* public transfer
path `insert` already breaks the soundness invariant.  Extracting the
sound entry `("a", T0) = 1` and inserting its capsule under the
destination key `("a", T1)` — legal whenever the C++ types are
convertible (`static_assert(std::is_convertible_v<W, V>)`) — takes the
`try_emplace(k, std::move(node_handle.mapped()))` path, which moves the
type-erased holder unchanged: the resulting entry's key denotes type
`T1` while its holder still holds a `T0` value, so the invariant is
broken without ever calling `unsafe_insert_or_assign`. -/
theorem insert_convertible_breaks_invariant :
    DSound [(⟨"a", 0⟩, some (0, 1))] ∧
    (extract1 [(⟨"a", 0⟩, some (0, 1))] ⟨"a", 0⟩).1.2 =
      some (⟨"a", 0⟩, some (0, 1)) ∧
    insert1 true [] ⟨"a", 1⟩ ⟨"a", 0⟩
        (extract1 [(⟨"a", 0⟩, some (0, 1))] ⟨"a", 0⟩).1.2 =
      [(⟨"a", 1⟩, some (0, 1))] ∧
    ¬ DSound [(⟨"a", 1⟩, some (0, 1))] := by
  refine ⟨by decide, by decide, by decide, by decide⟩

/-! ## Claim C10: balanced assembly of the sorted sequence -/

/-- The iterative `Split` (`splitGo`) computes exactly the
take/middle/drop decomposition used in `sortedToTree`. -/
theorem splitGo_spec :
    ∀ (l acc : List SPair) (t : Nat) (ht : t < l.length),
      splitGo acc l (acc.length + t) =
        some (acc ++ l.take t, l.get ⟨t, ht⟩, l.drop (t + 1)) := by
  intro l
  induction l with
  | nil => intro acc t ht; cases ht
  | cons h rs ih =>
    intro acc t ht
    cases t with
    | zero => simp [splitGo]
    | succ t =>
      have hne : acc.length ≠ acc.length + (t + 1) := by omega
      have ht' : t < rs.length := by simpa using Nat.lt_of_succ_lt_succ ht
      have harg : acc.length + (t + 1) = (acc ++ [h]).length + t := by
        simp [List.length_append]; omega
      simp only [splitGo, hne, ite_false]
      rw [harg, ih (acc ++ [h]) t ht']
      simp [List.append_assoc]

theorem sortedToTree_inorder (l : List SPair) : inorder (sortedToTree l) = l := by
  induction l using sortedToTree.induct with
  | case1 => simp [sortedToTree, inorder]
  | case2 h t ih1 ih2 =>
    rw [sortedToTree]
    simp only [inorder, ih1, ih2]
    rw [List.get_cons_drop, List.take_append_drop]

theorem sortedToTree_height (l : List SPair) :
    heightT (sortedToTree l) ≤ Nat.clog 2 (l.length + 1) := by
  induction l using sortedToTree.induct with
  | case1 => simp [sortedToTree, heightT]
  | case2 h t ih1 ih2 =>
    rw [sortedToTree]
    simp only [heightT]
    have hlen1 : ((h :: t).take (t.length / 2)).length = t.length / 2 := by
      simp [List.length_take]
      omega
    have hlen2 : ((h :: t).drop (t.length / 2 + 1)).length = t.length - t.length / 2 := by
      simp [List.length_drop]
    rw [hlen1] at ih1
    rw [hlen2] at ih2
    have hmono : Nat.clog 2 (t.length / 2 + 1) ≤ Nat.clog 2 (t.length - t.length / 2 + 1) :=
      Nat.clog_mono_right 2 (by omega)
    have hstep : Nat.clog 2 (t.length + 2) = Nat.clog 2 ((t.length + 3) / 2) + 1 := by
      rw [Nat.clog_of_two_le (by norm_num) (by omega),
        show t.length + 2 + 2 - 1 = t.length + 3 from by omega]
    have hceil : (t.length + 3) / 2 = t.length - t.length / 2 + 1 := by omega
    have hbound : max (heightT (sortedToTree ((h :: t).take (t.length / 2))))
        (heightT (sortedToTree ((h :: t).drop (t.length / 2 + 1)))) ≤
        Nat.clog 2 (t.length - t.length / 2 + 1) :=
      max_le (ih1.trans hmono) ih2
    calc 1 + max (heightT (sortedToTree ((h :: t).take (t.length / 2))))
          (heightT (sortedToTree ((h :: t).drop (t.length / 2 + 1))))
        ≤ 1 + Nat.clog 2 (t.length - t.length / 2 + 1) := by omega
      _ = Nat.clog 2 ((h :: t).length + 1) := by
          simp only [List.length_cons]
          rw [hstep, hceil]
          omega

/-- Claim C10: the tree assembly recursively splits the sorted sequence
at its middle index — the middle pair becomes the node's stored value,
the sub-sequences become the subtrees, and a zero-element subtree is the
explicit empty marker (the `HTree.empty` constructor, not a nullable
reference) — so the in-order traversal of the resulting tree equals the
sorted sequence, the access depth is at most `⌈log₂ (N + 1)⌉` levels,
and the iterative `Split` yields exactly that take/middle/drop
decomposition. -/
theorem sorted_tree_assembly_spec (l : List SPair) :
    inorder (sortedToTree l) = l ∧
    heightT (sortedToTree l) ≤ Nat.clog 2 (l.length + 1) ∧
    (∀ (h : SPair) (t : List SPair),
      splitGo [] (h :: t) (t.length / 2) =
        some ((h :: t).take (t.length / 2), (h :: t).getD (t.length / 2) h,
          (h :: t).drop (t.length / 2 + 1))) := by
  refine ⟨sortedToTree_inorder l, sortedToTree_height l, ?_⟩
  intro h t
  have ht : t.length / 2 < (h :: t).length := by
    simp only [List.length_cons]
    omega
  have := splitGo_spec (h :: t) [] (t.length / 2) ht
  simp only [List.length_nil, Nat.zero_add, List.nil_append] at this
  rw [this, List.getD_eq_getElem _ h ht]
  simp [List.get_eq_getElem]

/-! ## Merge-sort correctness (compile-time map) -/

theorem mergeRuns_perm : ∀ l r : List SPair, (mergeRuns l r).Perm (l ++ r) := by
  intro l r
  induction l, r using mergeRuns.induct with
  | case1 r => simp [mergeRuns]
  | case2 l => simp [mergeRuns]
  | case3 a l b r hlt ih =>
    simp only [mergeRuns, hlt, ite_true, List.cons_append]
    exact ih.cons a
  | case4 a l b r hlt ih =>
    simp only [mergeRuns, hlt, ite_false, List.cons_append]
    exact (ih.cons b).trans (List.perm_middle).symm

theorem mergeRuns_pairwise :
    ∀ l r : List SPair, l.Pairwise (fun a b => a.key ≤ b.key) →
      r.Pairwise (fun a b => a.key ≤ b.key) →
      (mergeRuns l r).Pairwise (fun a b => a.key ≤ b.key) := by
  intro l r
  induction l, r using mergeRuns.induct with
  | case1 r => intro _ hr; simpa [mergeRuns] using hr
  | case2 l => intro hl _; simpa [mergeRuns] using hl
  | case3 a l b r hlt ih =>
    intro hl hr
    obtain ⟨ha, hl'⟩ := List.pairwise_cons.mp hl
    obtain ⟨hb, hr'⟩ := List.pairwise_cons.mp hr
    simp only [mergeRuns, hlt, ite_true]
    rw [List.pairwise_cons]
    refine ⟨?_, ih hl' hr⟩
    intro x hx
    have hx2 : x ∈ l ++ (b :: r) := (mergeRuns_perm l (b :: r)).mem_iff.mp hx
    rw [List.mem_append, List.mem_cons] at hx2
    rcases hx2 with hx' | hx' | hx'
    · exact ha x hx'
    · subst hx'; exact le_of_lt hlt
    · exact (le_of_lt hlt).trans (hb x hx')
  | case4 a l b r hlt ih =>
    intro hl hr
    obtain ⟨ha, hl'⟩ := List.pairwise_cons.mp hl
    obtain ⟨hb, hr'⟩ := List.pairwise_cons.mp hr
    have hba : b.key ≤ a.key := le_of_not_lt hlt
    simp only [mergeRuns, hlt, ite_false]
    rw [List.pairwise_cons]
    refine ⟨?_, ih hl hr'⟩
    intro x hx
    have hx2 : x ∈ (a :: l) ++ r := (mergeRuns_perm (a :: l) r).mem_iff.mp hx
    rw [List.cons_append, List.mem_cons, List.mem_append] at hx2
    rcases hx2 with hx' | hx' | hx'
    · subst hx'; exact hba
    · exact hba.trans (ha x hx')
    · exact hb x hx'

theorem mergeNAux_perm :
    ∀ hd ls : List (List SPair), (mergeNAux hd ls).Perm (hd ++ ls).join := by
  intro hd ls
  induction hd, ls using mergeNAux.induct with
  | case1 => simp [mergeNAux]
  | case2 l => simp [mergeNAux]
  | case3 h hs ih => simpa [mergeNAux] using ih
  | case4 h hs l ih => simpa [mergeNAux] using ih
  | case5 hd l1 l2 ls ih =>
    simp only [mergeNAux]
    refine ih.trans ?_
    have h1 : ((hd ++ [mergeRuns l1 l2]) ++ ls).join =
        hd.join ++ (mergeRuns l1 l2 ++ ls.join) := by
      simp [List.append_assoc]
    have h2 : (hd ++ l1 :: l2 :: ls).join =
        hd.join ++ (l1 ++ (l2 ++ ls.join)) := by
      simp [List.append_assoc]
    rw [h1, h2]
    refine List.Perm.append_left hd.join ?_
    refine ((mergeRuns_perm l1 l2).append_right ls.join).trans ?_
    rw [List.append_assoc]

theorem mergeNAux_pairwise :
    ∀ hd ls : List (List SPair),
      (∀ r0 ∈ hd ++ ls, r0.Pairwise (fun a b => a.key ≤ b.key)) →
      (mergeNAux hd ls).Pairwise (fun a b => a.key ≤ b.key) := by
  intro hd ls
  induction hd, ls using mergeNAux.induct with
  | case1 => intro _; simp [mergeNAux]
  | case2 l =>
    intro h
    simp only [mergeNAux]
    exact h l (by simp)
  | case3 h hs ih =>
    intro hall
    simp only [mergeNAux]
    exact ih (by simpa using hall)
  | case4 h hs l ih =>
    intro hall
    simp only [mergeNAux]
    refine ih ?_
    intro r0 hr0
    apply hall
    simp only [List.append_nil, List.mem_append] at hr0 ⊢
    tauto
  | case5 hd l1 l2 ls ih =>
    intro hall
    simp only [mergeNAux]
    refine ih ?_
    intro r0 hr0
    simp only [List.mem_append, List.mem_singleton] at hr0
    rcases hr0 with (hr0 | hr0) | hr0
    · exact hall r0 (by simp [hr0])
    · subst hr0
      exact mergeRuns_pairwise l1 l2 (hall l1 (by simp)) (hall l2 (by simp))
    · exact hall r0 (by simp [hr0])

theorem join_map_singleton (ps : List SPair) :
    (ps.map fun p => [p]).join = ps := by
  induction ps with
  | nil => rfl
  | cons p ps ih => simp [ih]

theorem mergeSortL_perm (ps : List SPair) : (mergeSortL ps).Perm ps := by
  have := mergeNAux_perm [] (ps.map fun p => [p])
  simpa [mergeSortL, join_map_singleton] using this

theorem mergeSortL_pairwise (ps : List SPair) :
    (mergeSortL ps).Pairwise (fun a b => a.key ≤ b.key) := by
  refine mergeNAux_pairwise [] (ps.map fun p => [p]) ?_
  intro r0 hr0
  simp only [List.nil_append, List.mem_map] at hr0
  obtain ⟨p, -, rfl⟩ := hr0
  simp

/-! ## Claims C1 and C9: compile-time build + lookup, duplicate rejection -/

theorem findInTree_sortedToTree :
    ∀ l : List SPair, l.Pairwise (fun a b => a.key < b.key) →
      ∀ p ∈ l, findInTree (sortedToTree l) p.key = some p := by
  intro l
  induction l using sortedToTree.induct with
  | case1 => intro _ p hp; cases hp
  | case2 h t ih1 ih2 =>
    intro hs p hp
    have hlt : t.length / 2 < (h :: t).length := by
      simp only [List.length_cons]
      omega
    have hdecomp : h :: t =
        (h :: t).take (t.length / 2) ++
          (h :: t).get ⟨t.length / 2, hlt⟩ :: (h :: t).drop (t.length / 2 + 1) := by
      rw [List.get_cons_drop, List.take_append_drop]
    have hs' : ((h :: t).take (t.length / 2) ++
        (h :: t).get ⟨t.length / 2, hlt⟩ :: (h :: t).drop (t.length / 2 + 1)).Pairwise
        (fun a b => a.key < b.key) := hdecomp ▸ hs
    rw [List.pairwise_append] at hs'
    obtain ⟨hsL, hsMR, hcross⟩ := hs'
    obtain ⟨hmid, hsR⟩ := List.pairwise_cons.mp hsMR
    have hL : ∀ x ∈ (h :: t).take (t.length / 2),
        x.key < ((h :: t).get ⟨t.length / 2, hlt⟩).key :=
      fun x hx => hcross x hx _ (List.mem_cons_self _ _)
    rw [sortedToTree]
    simp only [findInTree]
    rw [hdecomp] at hp
    rcases List.mem_append.mp hp with hpL | hpMR
    · have hplt : p.key < ((h :: t).get ⟨t.length / 2, hlt⟩).key := hL p hpL
      rw [if_pos hplt]
      exact ih1 hsL p hpL
    · rcases List.mem_cons.mp hpMR with rfl | hpR
      · rw [if_neg (lt_irrefl _), if_neg (lt_irrefl _)]
      · have hplt : ((h :: t).get ⟨t.length / 2, hlt⟩).key < p.key := hmid p hpR
        rw [if_neg (asymm hplt), if_pos hplt]
        exact ih2 hsR p hpR

/-- Claim C1: building an `HMap` from any arbitrary-order list of
compile-time key/value pairs with pairwise-distinct key strings
(merge-sort, then balanced-tree assembly) and indexing with the fully
typed key of each original pair — the tree lookup followed by the
stored-type check of `operator[]` — returns exactly the stored value. -/
theorem hmap_build_lookup (ps : List SPair)
    (hds : ps.Pairwise fun a b => a.key ≠ b.key) :
    ∀ p ∈ ps, hmapIndex (sortedToTree (mergeSortL ps)) p.key p.ty = some p.val := by
  intro p hp
  have hperm := mergeSortL_perm ps
  have hle := mergeSortL_pairwise ps
  have hne : (mergeSortL ps).Pairwise (fun a b => a.key ≠ b.key) :=
    (hperm.pairwise_iff fun h => h.symm).mpr hds
  have hstrict : (mergeSortL ps).Pairwise (fun a b => a.key < b.key) := by
    refine (hle.and hne).imp ?_
    rintro a b ⟨h1, h2⟩
    exact lt_of_le_of_ne h1 (by simpa using h2)
  have hmem : p ∈ mergeSortL ps := hperm.mem_iff.mpr hp
  have hfind := findInTree_sortedToTree _ hstrict p hmem
  simp [hmapIndex, hfind]

/-- Witness for C1 on the example program's map
`("foo", int) = 1, ("bar", float) = 2, ("baz", string) = 3` (types as
tags, values as payloads): the fully typed lookup of `("foo", int)`
returns `1`. -/
theorem hmap_build_lookup_witness :
    ([⟨"foo", 0, 1⟩, ⟨"bar", 1, 2⟩, ⟨"baz", 2, 3⟩] : List SPair).Pairwise
      (fun a b => a.key ≠ b.key) ∧
    hmapIndex (sortedToTree (mergeSortL [⟨"foo", 0, 1⟩, ⟨"bar", 1, 2⟩, ⟨"baz", 2, 3⟩]))
      "foo" 0 = some 1 :=
  ⟨by decide,
    hmap_build_lookup [⟨"foo", 0, 1⟩, ⟨"bar", 1, 2⟩, ⟨"baz", 2, 3⟩] (by decide)
      ⟨"foo", 0, 1⟩ (by decide)⟩

theorem noRepeats_pairwise_of_sorted :
    ∀ l : List SPair, l.Pairwise (fun a b => a.key ≤ b.key) →
      noRepeats (l.map (·.key)) = true →
      l.Pairwise (fun a b => a.key ≠ b.key) := by
  intro l
  induction l with
  | nil => intro _ _; exact List.Pairwise.nil
  | cons a tail ih =>
    intro hs hnr
    cases tail with
    | nil => simp
    | cons b rest =>
      obtain ⟨ha, hs'⟩ := List.pairwise_cons.mp hs
      have hab : a.key ≠ b.key := by
        by_contra heq
        simp [noRepeats, heq] at hnr
      have hnr' : noRepeats ((b :: rest).map (·.key)) = true := by
        simpa [noRepeats, hab] using hnr
      have hp' := ih hs' hnr'
      rw [List.pairwise_cons]
      refine ⟨?_, hp'⟩
      intro x hx
      rcases List.mem_cons.mp hx with rfl | hx'
      · exact hab
      · have hab' : a.key < b.key := lt_of_le_of_ne (ha b (List.mem_cons_self _ _)) hab
        have hbx : b.key ≤ x.key := (List.pairwise_cons.mp hs').1 x hx'
        exact ne_of_lt (hab'.trans_le hbx)

/-- Claim C9: whenever the input pair list contains two pairs sharing an
identical key string (in particular an identical `(string, type)`), the
no-duplicate check that the `HMap` constructor evaluates on the sorted
sequence — the condition of its `static_assert`, whose failure is a
type-checking error, not a runtime one — is `false`. -/
theorem duplicate_keys_rejected (ps : List SPair)
    (hdup : ¬ ps.Pairwise fun a b => a.key ≠ b.key) :
    noDuplicateKeys ps = false := by
  by_contra h
  rw [Bool.not_eq_false] at h
  have hp := noRepeats_pairwise_of_sorted (mergeSortL ps) (mergeSortL_pairwise ps) h
  exact hdup (((mergeSortL_perm ps).pairwise_iff fun h' => h'.symm).mp hp)

/-- Witness for C9: the example's rejected map
`("foo", int), ("bar", int), ("foo", float)` — two pairs named "foo" —
fails the duplicate check. -/
theorem duplicate_keys_rejected_witness :
    (¬ ([⟨"foo", 0, 1⟩, ⟨"bar", 0, 1⟩, ⟨"foo", 1, 1⟩] : List SPair).Pairwise
      (fun a b => a.key ≠ b.key)) ∧
    noDuplicateKeys [⟨"foo", 0, 1⟩, ⟨"bar", 0, 1⟩, ⟨"foo", 1, 1⟩] = false :=
  ⟨by decide,
    duplicate_keys_rejected [⟨"foo", 0, 1⟩, ⟨"bar", 0, 1⟩, ⟨"foo", 1, 1⟩] (by decide)⟩

/-! ## Claim C3: checkout / checkin round trip -/

theorem mapInsertIfAbsent_comm (k k' : KeyB) (hne : k ≠ k') (a a' : AnyV) :
    ∀ m : DMap,
      mapInsertIfAbsent k a (mapInsertIfAbsent k' a' m) =
        mapInsertIfAbsent k' a' (mapInsertIfAbsent k a m) := by
  intro m
  induction m with
  | nil =>
    rcases kLTb_trichotomy k k' with h | h | h
    · simp [mapInsertIfAbsent, h, kLTb_asymm h]
    · exact absurd h hne
    · simp [mapInsertIfAbsent, h, kLTb_asymm h]
  | cons e es ih =>
    obtain ⟨x, v⟩ := e
    rcases kLTb_trichotomy k x with hA | hB | hC
    · rcases kLTb_trichotomy k' x with hA' | hB' | hC'
      · rcases kLTb_trichotomy k k' with h | h | h
        · simp [mapInsertIfAbsent, hA, hA', h, kLTb_asymm h]
        · exact absurd h hne
        · simp [mapInsertIfAbsent, hA, hA', h, kLTb_asymm h]
      · subst hB'
        simp [mapInsertIfAbsent, hA, kLTb_irrefl, kLTb_asymm hA]
      · have hkk' : kLTb k k' = true := kLTb_trans hA hC'
        simp [mapInsertIfAbsent, hA, hC', kLTb_asymm hC', kLTb_asymm hkk', hkk']
    · subst hB
      rcases kLTb_trichotomy k' k with hA' | hB' | hC'
      · simp [mapInsertIfAbsent, hA', kLTb_asymm hA', kLTb_irrefl]
      · exact absurd hB'.symm hne
      · simp [mapInsertIfAbsent, hC', kLTb_asymm hC', kLTb_irrefl]
    · rcases kLTb_trichotomy k' x with hA' | hB' | hC'
      · have hk'k : kLTb k' k = true := kLTb_trans hA' hC
        simp [mapInsertIfAbsent, hC, hA', kLTb_asymm hC, kLTb_asymm hk'k, hk'k]
      · subst hB'
        simp [mapInsertIfAbsent, hC, kLTb_irrefl, kLTb_asymm hC]
      · simp [mapInsertIfAbsent, hC, hC', kLTb_asymm hC, kLTb_asymm hC', ih]

theorem mapAssignAt_insert_comm (k k' : KeyB) (hne : k ≠ k') (a a' : AnyV) :
    ∀ m : DMap,
      mapAssignAt k' a' (mapInsertIfAbsent k a m) =
        mapInsertIfAbsent k a (mapAssignAt k' a' m) := by
  intro m
  have hkk' : kEquivB k k' = false := kEquivB_eq_false_iff.mpr hne
  induction m with
  | nil => simp [mapInsertIfAbsent, mapAssignAt, hkk']
  | cons e es ih =>
    obtain ⟨x, v⟩ := e
    rcases kLTb_trichotomy k x with hA | hB | hC
    · by_cases hx : kEquivB x k' = true
      · simp [mapInsertIfAbsent, mapAssignAt, hA, hkk', hx]
      · rw [Bool.not_eq_true] at hx
        simp [mapInsertIfAbsent, mapAssignAt, hA, hkk', hx]
    · subst hB
      have hx : kEquivB k k' = false := hkk'
      simp [mapInsertIfAbsent, mapAssignAt, kLTb_irrefl, hx]
    · by_cases hx : kEquivB x k' = true
      · simp [mapInsertIfAbsent, mapAssignAt, hC, kLTb_asymm hC, hx]
      · rw [Bool.not_eq_true] at hx
        simp [mapInsertIfAbsent, mapAssignAt, hC, kLTb_asymm hC, hx, ih]

theorem optCheckOut1_cases {m : DMap} {k : KeyB} {r : Option Nat} {m1 : DMap}
    (h : optCheckOut1 m k = some (r, m1)) : m1.Sublist m := by
  have hx := mapExtract_sublist k m
  unfold optCheckOut1 at h
  cases hmx : mapExtract k m with
  | mk n m' =>
    rw [hmx] at h hx
    cases n with
    | none => simp at h; rw [← h.2]; exact hx
    | some e =>
      simp only at h
      cases hc : anyCast k.tag e.2 with
      | none => rw [hc] at h; cases h
      | some p => rw [hc] at h; simp at h; rw [← h.2]; exact hx

theorem mapFind_none_of_sublist {m m' : DMap} {k : KeyB}
    (hsub : m'.Sublist m) (h : mapFind m k = none) : mapFind m' k = none := by
  rw [mapFind_eq_none_iff] at h ⊢
  exact fun e he => h e (hsub.mem he)

theorem checkOutList_preserves_absence :
    ∀ (ks : List KeyB) (m : DMap) (rs : List (Option Nat)) (m2 : DMap) (k : KeyB),
      mapFind m k = none → checkOutList m ks = some (rs, m2) →
      mapFind m2 k = none ∧ ∀ pr ∈ ks.zip rs, pr.1 = k → pr.2 = none := by
  intro ks
  induction ks with
  | nil =>
    intro m rs m2 k hk hco
    simp only [checkOutList, Option.some.injEq, Prod.mk.injEq] at hco
    obtain ⟨rfl, rfl⟩ := hco
    exact ⟨hk, by simp⟩
  | cons k0 ks' ih =>
    intro m rs m2 k hk hco
    cases h1 : optCheckOut1 m k0 with
    | none => simp [checkOutList, h1] at hco
    | some pr1 =>
      obtain ⟨r1, m1⟩ := pr1
      cases h2 : checkOutList m1 ks' with
      | none => simp [checkOutList, h1, h2] at hco
      | some pr2 =>
        obtain ⟨rs', m2'⟩ := pr2
        simp only [checkOutList, h1, h2, Option.some.injEq, Prod.mk.injEq] at hco
        obtain ⟨hrs, rfl⟩ := hco
        have hk1 : mapFind m1 k = none :=
          mapFind_none_of_sublist (optCheckOut1_cases h1) hk
        obtain ⟨hk2, hzip⟩ := ih m1 rs' m2' k hk1 h2
        refine ⟨hk2, ?_⟩
        intro pr hpr hprk
        rw [← hrs] at hpr
        rw [List.zip_cons_cons, List.mem_cons] at hpr
        rcases hpr with rfl | hpr
        · -- the head pair is (k0, r1) with k0 = k: then k0 was absent, so r1 = none
          simp only at hprk
          rw [hprk] at h1
          have h1' : optCheckOut1 m k = some (none, m) := by
            simp [optCheckOut1, mapExtract_of_find_none hk]
          rw [h1'] at h1
          simp only [Option.some.injEq, Prod.mk.injEq] at h1
          exact h1.1.symm
        · exact hzip pr hpr hprk

theorem checkInList_insert_comm (k : KeyB) (a : AnyV) :
    ∀ (rs : List (Option Nat)) (ks : List KeyB) (X : DMap),
      (∀ pr ∈ ks.zip rs, pr.1 = k → pr.2 = none) →
      checkInList (mapInsertIfAbsent k a X) rs ks =
        (checkInList X rs ks).map (mapInsertIfAbsent k a) := by
  intro rs
  induction rs with
  | nil =>
    intro ks X _
    cases ks <;> simp [checkInList]
  | cons r rs ih =>
    intro ks X h
    cases ks with
    | nil => simp [checkInList]
    | cons k0 ks' =>
      have htail : ∀ pr ∈ ks'.zip rs, pr.1 = k → pr.2 = none := fun pr hpr =>
        h pr (by rw [List.zip_cons_cons]; exact List.mem_cons_of_mem _ hpr)
      cases r with
      | none =>
        simp only [checkInList, optCheckIn1]
        exact ih ks' X htail
      | some p =>
        have hk0 : k0 ≠ k := by
          intro he
          have := h (k0, some p)
            (by rw [List.zip_cons_cons]; exact List.mem_cons_self _ _) he
          cases this
        cases hf : mapFind X k0 with
        | none =>
          have hfL : mapFind (mapInsertIfAbsent k a X) k0 = none := by
            rw [mapFind_insertIfAbsent_ne a (Ne.symm hk0), hf]
          simp only [checkInList, optCheckIn1, hf, hfL]
          rw [mapInsertIfAbsent_comm k0 k hk0 (some (k0.tag, p)) a X]
          exact ih ks' (mapInsertIfAbsent k0 (some (k0.tag, p)) X) htail
        | some e =>
          have hfL : mapFind (mapInsertIfAbsent k a X) k0 = some e := by
            rw [mapFind_insertIfAbsent_ne a (Ne.symm hk0), hf]
          cases hv : e.2 with
          | none =>
            simp only [checkInList, optCheckIn1, hf, hfL, hv]
            rw [mapAssignAt_insert_comm k k0 (Ne.symm hk0) a (some (k0.tag, p)) X]
            exact ih ks' (mapAssignAt k0 (some (k0.tag, p)) X) htail
          | some tq =>
            obtain ⟨t, q⟩ := tq
            by_cases ht : t = k0.tag
            · simp only [checkInList, optCheckIn1, hf, hfL, hv, ht, if_pos rfl]
              rw [mapAssignAt_insert_comm k k0 (Ne.symm hk0) a (some (k0.tag, p)) X]
              exact ih ks' (mapAssignAt k0 (some (k0.tag, p)) X) htail
            · simp [checkInList, optCheckIn1, hf, hfL, hv, ht]

theorem checkOutIn_restores :
    ∀ (ks : List KeyB) (m : DMap), DWF m → DSound m →
      ∃ rs m2, checkOutList m ks = some (rs, m2) ∧ checkInList m2 rs ks = some m := by
  intro ks
  induction ks with
  | nil =>
    intro m _ _
    exact ⟨[], m, rfl, rfl⟩
  | cons k0 ks' ih =>
    intro m hwf hs
    cases hf : mapFind m k0 with
    | none =>
      have h1 : optCheckOut1 m k0 = some (none, m) := by
        simp [optCheckOut1, mapExtract_of_find_none hf]
      obtain ⟨rs, m2, hco, hci⟩ := ih m hwf hs
      refine ⟨none :: rs, m2, ?_, ?_⟩
      · simp [checkOutList, h1, hco]
      · simp only [checkInList, optCheckIn1]
        exact hci
    | some e =>
      obtain ⟨ek, ev⟩ := e
      have hek : ek = k0 := (mapFind_some hf).2
      subst hek
      obtain ⟨p, hev⟩ : ∃ p, ev = some (ek.tag, p) := by
        have hsnd := hs (ek, ev) (mapFind_some hf).1
        unfold entrySound at hsnd
        cases hv : ev with
        | some tq =>
          obtain ⟨t, q⟩ := tq
          rw [hv] at hsnd
          simp only [beq_iff_eq] at hsnd
          exact ⟨q, by rw [hsnd]⟩
        | none => rw [hv] at hsnd; cases hsnd
      subst hev
      obtain ⟨l1, l2, hm, hx, hl1⟩ := mapExtract_of_find_some hf
      have h1 : optCheckOut1 m ek = some (some p, l1 ++ l2) := by
        simp [optCheckOut1, hx, anyCast]
      have hsub : (l1 ++ l2).Sublist m := by
        have := mapExtract_sublist ek m
        rwa [hx] at this
      have hwf1 : DWF (l1 ++ l2) := DWF_of_sublist hsub hwf
      have hs1 : DSound (l1 ++ l2) := DSound_of_sublist hsub hs
      obtain ⟨rs, m2, hco, hci⟩ := ih (l1 ++ l2) hwf1 hs1
      -- the checked-out key is absent from the remainder and stays absent
      have hwf' : List.Pairwise (fun a b : DEntry => kLTb a.1 b.1 = true)
          (l1 ++ (ek, some (ek.tag, p)) :: l2) := hm ▸ hwf
      rw [List.pairwise_append] at hwf'
      have habs : mapFind (l1 ++ l2) ek = none := by
        rw [mapFind_eq_none_iff]
        intro x hx'
        rcases List.mem_append.mp hx' with hx' | hx'
        · exact kEquivB_eq_false_iff.mp (hl1 x hx')
        · have := (List.pairwise_cons.mp hwf'.2.1).1 x hx'
          intro he
          rw [he] at this
          rw [kLTb_irrefl] at this
          cases this
      obtain ⟨habs2, hzip⟩ :=
        checkOutList_preserves_absence ks' (l1 ++ l2) rs m2 ek habs hco
      have h2 : optCheckIn1 m2 ek (some p) =
          some (mapInsertIfAbsent ek (some (ek.tag, p)) m2) := by
        simp [optCheckIn1, habs2]
      refine ⟨some p :: rs, m2, ?_, ?_⟩
      · simp [checkOutList, h1, hco]
      · simp only [checkInList, h2]
        rw [checkInList_insert_comm ek (some (ek.tag, p)) rs ks' m2 hzip, hci]
        have hgap : mapInsertIfAbsent ek (some (ek.tag, p)) (l1 ++ l2) =
            l1 ++ (ek, some (ek.tag, p)) :: l2 := by
          refine mapInsertIfAbsent_between ek (some (ek.tag, p)) l1 l2 ?_ ?_
          · exact fun x hx' => hwf'.2.2 x hx' _ (List.mem_cons_self _ _)
          · exact (List.pairwise_cons.mp hwf'.2.1).1
        simp [hgap, ← hm]

/-- Claim C3: for every well-formed, sound `DynamicHMap` and every list
of keys, `optCheckOut` over the keys followed immediately by
`optCheckIn` of the returned optionals under the same keys — with no
external mutation in between — restores the map to exactly its
pre-checkout contents (hence size), untouched keys included; an absent
key checks out as an empty optional, and empty optionals are skipped on
check-in.  (Default-constructibility and move-assignability of the
declared value types are C++-typing preconditions; every modelled value
admits both.) -/
theorem checkout_checkin_roundtrip (ks : List KeyB) (m : DMap)
    (hwf : DWF m) (hs : DSound m) :
    ((checkOutList m ks).bind fun pr => checkInList pr.2 pr.1 ks) = some m ∧
    (∀ k, mapFind m k = none → optCheckOut1 m k = some (none, m)) ∧
    (∀ (X : DMap) (k : KeyB), optCheckIn1 X k none = some X) := by
  obtain ⟨rs, m2, hco, hci⟩ := checkOutIn_restores ks m hwf hs
  refine ⟨?_, ?_, fun X k => rfl⟩
  · rw [hco]
    simpa using hci
  · intro k hk
    simp [optCheckOut1, mapExtract_of_find_none hk]

/-- Witness for C3 on the example program's scenario: checking out
`("baz", string)` (present) and `("cusp", string)` (absent) from the
two-entry map and immediately checking the results back in restores the
map exactly. -/
theorem checkout_checkin_roundtrip_witness :
    DWF [(⟨"bar", 1⟩, some (1, 2)), (⟨"baz", 2⟩, some (2, 3))] ∧
    DSound [(⟨"bar", 1⟩, some (1, 2)), (⟨"baz", 2⟩, some (2, 3))] ∧
    ((checkOutList [(⟨"bar", 1⟩, some (1, 2)), (⟨"baz", 2⟩, some (2, 3))]
        [⟨"baz", 2⟩, ⟨"cusp", 2⟩]).bind fun pr =>
      checkInList pr.2 pr.1 [⟨"baz", 2⟩, ⟨"cusp", 2⟩]) =
      some [(⟨"bar", 1⟩, some (1, 2)), (⟨"baz", 2⟩, some (2, 3))] :=
  ⟨by decide, by decide,
    (checkout_checkin_roundtrip [⟨"baz", 2⟩, ⟨"cusp", 2⟩]
      [(⟨"bar", 1⟩, some (1, 2)), (⟨"baz", 2⟩, some (2, 3))]
      (by decide) (by decide)).1⟩
